import Mathlib

/-!
Shallow embedding of the pixel-level image-processing algorithms of
`src/lab02/src/main.ts` (the variant with the pure-TS fallback paths):
`computeLuminanceHistogram`, `getGrayscale`, `grayscaleToImageData`,
`otsuThreshold`, `adaptiveMeanThreshold` (fallback), `dilateGray` /
`erodeGray` (fallback), `applyMedian` (fallback), `equalizeRGB`
(fallback), `rgbToHls` / `hlsToRgb`.

Conventions of the embedding:
* an `ImageData` (width×height RGBA8 buffer, flat `Uint8ClampedArray` of
  RGBA quadruples) is modelled as a list of 4-field `Pixel` records; the
  stride-4 loops of the source become maps over that list;
* JavaScript double-precision numbers are modelled as exact rationals
  (`ℚ`); decimal literals such as `0.2989` are read as exact decimal
  fractions; `Math.round` is `jsRound q = ⌊q + 1/2⌋` (JS rounds half-up);
* integer-valued accumulators (histogram counts, `wB`, `sumB`, integral
  image cells) are kept in `ℕ`, cast to `ℚ` exactly where the source
  performs a floating-point division;
* a `Uint32Array` store wraps modulo 2^32, a `Uint8Array` store wraps
  modulo 2^8; a `Uint8Array` store of `NaN` or `Infinity` (which arises
  in `equalizeRGB` when `w*h - 1 = 0`) yields `0`, per the ECMAScript
  `ToUint8` conversion;
* the bin-increment loops building histograms are modelled by their
  result: bin `t` holds the number of processed values equal to `t`
  (out-of-range bins read as 0, matching typed-array bounds behaviour).
-/

/-- JS `Math.round`: round half toward positive infinity. -/
def jsRound (q : ℚ) : ℤ := ⌊q + 1/2⌋

/-- One RGBA pixel of an `ImageData` buffer. -/
structure Pixel where
  r : ℕ
  g : ℕ
  b : ℕ
  a : ℕ
deriving DecidableEq, Repr

instance : Inhabited Pixel := ⟨⟨0, 0, 0, 0⟩⟩

/-- The `ImageData` raster buffer: width, height, and the RGBA pixels in
row-major order (the flat `data` array grouped in quadruples). -/
structure ImageData where
  width : ℕ
  height : ℕ
  data : List Pixel
deriving DecidableEq, Repr

/-- Well-formedness of a raster buffer: the pixel list has exactly
`width*height` entries and every channel is an 8-bit value, as guaranteed
for a real `ImageData` by its `Uint8ClampedArray` backing store. -/
def ImageData.wf (img : ImageData) : Prop :=
  img.data.length = img.width * img.height ∧
    ∀ p ∈ img.data, p.r ≤ 255 ∧ p.g ≤ 255 ∧ p.b ≤ 255 ∧ p.a ≤ 255

instance (img : ImageData) : Decidable img.wf := by
  unfold ImageData.wf; infer_instance

/-- Rec.601 luma of one pixel:
`Math.round(0.2989 * r + 0.5870 * g + 0.1140 * b)` (source line 489/462),
with the decimal weights read as exact fractions. -/
def luma (p : Pixel) : ℕ :=
  (jsRound ((2989 * p.r + 5870 * p.g + 1140 * p.b : ℚ) / 10000)).toNat

/-- `getGrayscale` (source lines 485-492): per-pixel luma projection. -/
def getGrayscale (img : ImageData) : List ℕ :=
  img.data.map luma

/-- `grayscaleToImageData` (source lines 494-501): replicate a gray value
into R, G and B and set alpha to 255. -/
def grayscaleToImageData (gray : List ℕ) (width height : ℕ) : ImageData :=
  ⟨width, height, gray.map (fun v => ⟨v, v, v, 255⟩)⟩

/-- `computeLuminanceHistogram` (source lines 457-466): 256 bins of luma
counts. Bin `t` holds the number of pixels of luma `t`; reads outside
the `Uint32Array(256)` give 0. -/
def computeLuminanceHistogram (img : ImageData) : ℕ → ℕ :=
  fun t => if t < 256 then (img.data.map luma).count t else 0

/-! ### Otsu global threshold (source lines 504-524) -/

/-- State of the threshold-scan loop of `otsuThreshold`: background
weight `wB`, background sum `sumB`, current maximum between-class
variance `varMax`, best threshold so far, and whether the `break` on
`wF == 0` has fired (after which remaining iterations do nothing). -/
structure OtsuState where
  wB : ℕ
  sumB : ℕ
  varMax : ℚ
  threshold : ℕ
  done : Bool
deriving Repr

/-- Between-class variance `wB * wF * (mB - mF)^2` computed at one scan
position, exactly as source lines 515-517 (`wF = total - wB`,
`mB = sumB / wB`, `mF = (sum - sumB) / wF`); real divisions are modelled
on `ℚ`. -/
def otsuVar (total sum wB sumB : ℕ) : ℚ :=
  let wF := total - wB
  let mB : ℚ := (sumB : ℚ) / wB
  let mF : ℚ := ((sum : ℚ) - (sumB : ℚ)) / wF
  (wB : ℚ) * (wF : ℚ) * (mB - mF) * (mB - mF)

/-- One iteration of the scan loop of `otsuThreshold` (source lines
509-519). `continue` on `wB == 0`, `break` on `wF == 0` (modelled by the
`done` flag), and the strictly-greater comparison `varBetween > varMax`
that keeps the earliest maximiser. `wF` is `total - wB` truncated at 0;
under a well-formed image `wB` never exceeds `total`. -/
def otsuStep (hist : ℕ → ℕ) (total sum : ℕ) (st : OtsuState) (t : ℕ) : OtsuState :=
  if st.done then st
  else
    let wB := st.wB + hist t
    if wB = 0 then { st with wB := wB }
    else
      let wF := total - wB
      if wF = 0 then { st with wB := wB, done := true }
      else
        let sumB := st.sumB + t * hist t
        let varBetween := otsuVar total sum wB sumB
        if st.varMax < varBetween then
          { wB := wB, sumB := sumB, varMax := varBetween, threshold := t, done := false }
        else { st with wB := wB, sumB := sumB }

/-- `otsuThreshold` (source lines 504-524): luminance histogram, scan of
all 256 levels for the variance-maximising threshold, then
binarisation `gray[i] > threshold ? 255 : 0` re-expanded to RGBA. -/
def otsuThreshold (img : ImageData) : ℕ × ImageData :=
  let hist := computeLuminanceHistogram img
  let total := img.width * img.height
  let sum := ∑ t ∈ Finset.range 256, t * hist t
  let final := (List.range 256).foldl (otsuStep hist total sum) ⟨0, 0, 0, 0, false⟩
  let gray := getGrayscale img
  let outGray := gray.map (fun g => if g > final.threshold then 255 else 0)
  (final.threshold, grayscaleToImageData outGray img.width img.height)

/-! ### Adaptive mean threshold, fallback path (source lines 543-566) -/

/-- Running row sum `rowSum` after processing column `x` of row `y`
(source lines 550-553): `gray[y*w+0] + ... + gray[y*w+x]`. -/
def rowSum (gray : List ℕ) (w y x : ℕ) : ℕ :=
  ∑ px ∈ Finset.range (x + 1), gray.getD (y * w + px) 0

/-- The integral image (source lines 548-555), indexed by cell
coordinates `(x, y)` of the `(w+1)×(h+1)` table: row 0 and column 0 keep
their `Uint32Array` zero initialisation, and
`integral[x+1][y+1] = integral[x+1][y] + rowSum(y, x)` with the store
wrapping modulo 2^32. -/
def integral (gray : List ℕ) (w : ℕ) : ℕ → ℕ → ℕ
  | 0, _ => 0
  | _ + 1, 0 => 0
  | x + 1, y + 1 => (integral gray w (x + 1) y + rowSum gray w y x) % 2 ^ 32

/-- The same recurrence without the `Uint32Array` wrap; used to show the
wrap is the identity for buffers whose total gray mass is below 2^32. -/
def integralExact (gray : List ℕ) (w : ℕ) : ℕ → ℕ → ℕ
  | 0, _ => 0
  | _ + 1, 0 => 0
  | x + 1, y + 1 => integralExact gray w (x + 1) y + rowSum gray w y x

/-- `adaptiveMeanThreshold`, pure-TS fallback (source lines 543-566):
grayscale projection, integral image, per-pixel clamped window mean, and
the test `gray > mean - C`. The double loop writing `out[y*w+x]` is
modelled as a map over row-major linear indices. -/
def adaptiveMeanThreshold (img : ImageData) (blockSize : ℕ) (C : ℚ) : ImageData :=
  let w := img.width
  let h := img.height
  let gray := getGrayscale img
  let r := blockSize / 2
  let out := (List.range (w * h)).map (fun i =>
    let y := i / w
    let x := i % w
    let x1 := x - r
    let y1 := y - r
    let x2 := min (w - 1) (x + r)
    let y2 := min (h - 1) (y + r)
    let area := (x2 - x1 + 1) * (y2 - y1 + 1)
    let s : ℤ := (integral gray w (x2 + 1) (y2 + 1) : ℤ) -
        (integral gray w (x2 + 1) y1 : ℤ) - (integral gray w x1 (y2 + 1) : ℤ) +
        (integral gray w x1 y1 : ℤ)
    let mean : ℚ := (s : ℚ) / (area : ℚ)
    if (gray.getD (y * w + x) 0 : ℚ) > mean - C then 255 else 0)
  grayscaleToImageData out w h

/-! ### Grayscale morphology, fallback paths (source lines 588-602 and 623-637) -/

/-- Clamped-border index: `Math.min(hi, Math.max(0, v))` on a signed
offset coordinate, result used as a nonnegative array index. -/
def clampIdx (v : ℤ) (hi : ℤ) : ℕ :=
  (min hi (max 0 v)).toNat

/-- `dilateGray`, fallback (source lines 588-602): per pixel, maximum of
the clamped `(2r+1)×(2r+1)` neighborhood, accumulated from 0. -/
def dilateGray (gray : List ℕ) (w h seRadius : ℕ) : List ℕ :=
  (List.range (w * h)).map (fun i =>
    let y := i / w
    let x := i % w
    ((List.range (2 * seRadius + 1)).flatMap (fun (j : ℕ) =>
      (List.range (2 * seRadius + 1)).map (fun (k : ℕ) =>
        let py := clampIdx ((y : ℤ) + (j : ℤ) - (seRadius : ℤ)) ((h : ℤ) - 1)
        let px := clampIdx ((x : ℤ) + (k : ℤ) - (seRadius : ℤ)) ((w : ℤ) - 1)
        gray.getD (py * w + px) 0))).foldl max 0)

/-- `erodeGray`, fallback (source lines 623-637): per pixel, minimum of
the clamped `(2r+1)×(2r+1)` neighborhood, accumulated from 255. -/
def erodeGray (gray : List ℕ) (w h seRadius : ℕ) : List ℕ :=
  (List.range (w * h)).map (fun i =>
    let y := i / w
    let x := i % w
    ((List.range (2 * seRadius + 1)).flatMap (fun (j : ℕ) =>
      (List.range (2 * seRadius + 1)).map (fun (k : ℕ) =>
        let py := clampIdx ((y : ℤ) + (j : ℤ) - (seRadius : ℤ)) ((h : ℤ) - 1)
        let px := clampIdx ((x : ℤ) + (k : ℤ) - (seRadius : ℤ)) ((w : ℤ) - 1)
        gray.getD (py * w + px) 0))).foldl min 255)

/-! ### Median filter, fallback path (source lines 661-688) -/

/-- The `(2r+1)²` values of channel `f` collected over the clamped
neighborhood of `(x, y)`, in the row-major order of the collection loop
(source lines 672-679). -/
def windowVals (img : ImageData) (f : Pixel → ℕ) (r x y : ℕ) : List ℕ :=
  (List.range (2 * r + 1)).flatMap (fun (j : ℕ) =>
    (List.range (2 * r + 1)).map (fun (k : ℕ) =>
      let py := clampIdx ((y : ℤ) + (j : ℤ) - (r : ℤ)) ((img.height : ℤ) - 1)
      let px := clampIdx ((x : ℤ) + (k : ℤ) - (r : ℤ)) ((img.width : ℤ) - 1)
      f (img.data.getD (py * img.width + px) default)))

/-- `applyMedian`, fallback (source lines 661-688): per pixel and per
channel, numeric ascending sort of the window values (`TypedArray.sort`
with no comparator sorts numerically) and selection of the element at
index `floor(windowSize/2)`; alpha is copied from the center pixel. -/
def applyMedian (img : ImageData) (radius : ℕ) : ImageData :=
  let w := img.width
  let h := img.height
  let windowSize := (2 * radius + 1) * (2 * radius + 1)
  let mid := windowSize / 2
  let data := (List.range (w * h)).map (fun i =>
    let y := i / w
    let x := i % w
    let sr := (windowVals img Pixel.r radius x y).mergeSort (fun a b => decide (a ≤ b))
    let sg := (windowVals img Pixel.g radius x y).mergeSort (fun a b => decide (a ≤ b))
    let sb := (windowVals img Pixel.b radius x y).mergeSort (fun a b => decide (a ≤ b))
    Pixel.mk (sr.getD mid 0) (sg.getD mid 0) (sb.getD mid 0)
      ((img.data.getD i default).a))
  ⟨w, h, data⟩

/-! ### Histogram equalization, RGB fallback path (source lines 707-743) -/

/-- Per-channel histogram of `equalizeRGB` (source line 736): bin `v`
holds the number of pixels whose channel `f` equals `v`. -/
def channelHist (img : ImageData) (f : Pixel → ℕ) : ℕ → ℕ :=
  fun v => if v < 256 then (img.data.map f).count v else 0

/-- Cumulative histogram: the running `sum` of source line 739 after
processing level `v`. -/
def cdf (hist : ℕ → ℕ) (v : ℕ) : ℕ :=
  ∑ t ∈ Finset.range (v + 1), hist t

/-- One stored LUT entry (source line 739):
`Math.round((sum - hist[0]) / (w*h - 1) * 255)` written into a
`Uint8Array`. A zero denominator makes the JS quotient `NaN` (0/0) or
`Infinity`, and `ToUint8` of either is 0; otherwise the store wraps the
rounded value modulo 256. -/
def lutEntry (s h0 den : ℕ) : ℕ :=
  if den = 0 then 0
  else ((jsRound (((s : ℚ) - (h0 : ℚ)) / (den : ℚ) * 255)) % 256).toNat

/-- The channel lookup table of `equalizeRGB` as a function of the input
level. -/
def lut (img : ImageData) (f : Pixel → ℕ) : ℕ → ℕ :=
  fun v =>
    lutEntry (cdf (channelHist img f) v) (channelHist img f 0)
      (img.width * img.height - 1)

/-- `equalizeRGB`, fallback (source lines 732-743): remap every pixel
channel through its channel LUT, alpha copied through. -/
def equalizeRGB (img : ImageData) : ImageData :=
  ⟨img.width, img.height,
    img.data.map (fun p =>
      ⟨lut img Pixel.r p.r, lut img Pixel.g p.g, lut img Pixel.b p.b, p.a⟩)⟩

/-! ### RGB ↔ HLS conversion (source lines 746-763) -/

/-- `rgbToHls` (source lines 746-755), returning `(h, l, s)`. The
`switch (max)` statement compares with `===`, so the red case wins ties,
then green, then blue. -/
def rgbToHls (r g b : ℕ) : ℚ × ℚ × ℚ :=
  let rq : ℚ := (r : ℚ) / 255
  let gq : ℚ := (g : ℚ) / 255
  let bq : ℚ := (b : ℚ) / 255
  let mx := max rq (max gq bq)
  let mn := min rq (min gq bq)
  let l := (mx + mn) / 2
  if mx = mn then (0, l, 0)
  else
    let d := mx - mn
    let s := if l > 1/2 then d / (2 - mx - mn) else d / (mx + mn)
    let hh :=
      if mx = rq then (gq - bq) / d + (if gq < bq then 6 else 0)
      else if mx = gq then (bq - rq) / d + 2
      else (rq - gq) / d + 4
    (hh / 6, l, s)

/-- The `hue2rgb` helper of `hlsToRgb` (source line 760). -/
def hue2rgb (p2 q2 t : ℚ) : ℚ :=
  let t1 := if t < 0 then t + 1 else t
  let t2 := if t1 > 1 then t1 - 1 else t1
  if t2 < 1/6 then p2 + (q2 - p2) * 6 * t2
  else if t2 < 1/2 then q2
  else if t2 < 2/3 then p2 + (q2 - p2) * (2/3 - t2) * 6
  else p2

/-- `hlsToRgb` (source lines 756-763), returning rounded RGB values. -/
def hlsToRgb (h l s : ℚ) : ℤ × ℤ × ℤ :=
  if s = 0 then
    let v := jsRound (l * 255)
    (v, v, v)
  else
    let q := if l < 1/2 then l * (1 + s) else l + s - l * s
    let p := 2 * l - q
    (jsRound (hue2rgb p q (h + 1/3) * 255),
     jsRound (hue2rgb p q h * 255),
     jsRound (hue2rgb p q (h - 1/3) * 255))

/-! ### Concrete test buffers used by the concrete-scenario claims -/

/-- The 4×4 test image of the Otsu concrete scenario: luma pattern
`[[0,0,255,255],[0,0,255,255],[0,0,255,255],[0,0,255,255]]`, replicated
RGB, alpha 255. -/
def imgOtsu4 : ImageData :=
  ⟨4, 4,
    [⟨0,0,0,255⟩, ⟨0,0,0,255⟩, ⟨255,255,255,255⟩, ⟨255,255,255,255⟩,
     ⟨0,0,0,255⟩, ⟨0,0,0,255⟩, ⟨255,255,255,255⟩, ⟨255,255,255,255⟩,
     ⟨0,0,0,255⟩, ⟨0,0,0,255⟩, ⟨255,255,255,255⟩, ⟨255,255,255,255⟩,
     ⟨0,0,0,255⟩, ⟨0,0,0,255⟩, ⟨255,255,255,255⟩, ⟨255,255,255,255⟩]⟩

/-! Basic arithmetic facts about `jsRound` and `luma`. -/

theorem jsRound_natCast_div (p q : ℕ) (hq : 0 < q) :
    jsRound ((p : ℚ) / q) = ((2 * p + q) / (2 * q) : ℕ) := by
  have hq0 : ((q : ℚ)) ≠ 0 := by exact_mod_cast hq.ne'
  have h2q : (0 : ℕ) < 2 * q := by omega
  have hrw : (p : ℚ) / q + 1/2 = ((2 * p + q : ℕ) : ℚ) / ((2 * q : ℕ) : ℚ) := by
    push_cast
    field_simp
    ring
  unfold jsRound
  rw [hrw]
  rw [Int.floor_eq_iff]
  constructor
  · exact_mod_cast Nat.cast_div_le
  · rw [div_lt_iff₀ (by exact_mod_cast h2q)]
    push_cast
    have hmod := Nat.mod_lt (2 * p + q) h2q
    have key : 2 * p + q < ((2 * p + q) / (2 * q) + 1) * (2 * q) := by
      calc 2 * p + q
          = 2 * q * ((2 * p + q) / (2 * q)) + (2 * p + q) % (2 * q) :=
            (Nat.div_add_mod _ _).symm
        _ < 2 * q * ((2 * p + q) / (2 * q)) + 2 * q := Nat.add_lt_add_left hmod _
        _ = ((2 * p + q) / (2 * q) + 1) * (2 * q) := by ring
    exact_mod_cast key

theorem luma_eq_natDiv (p : Pixel) :
    luma p = (2 * (2989 * p.r + 5870 * p.g + 1140 * p.b) + 10000) / 20000 := by
  unfold luma
  have h1 : ((2989 * p.r + 5870 * p.g + 1140 * p.b : ℚ)) =
      (((2989 * p.r + 5870 * p.g + 1140 * p.b : ℕ) : ℚ)) := by push_cast; ring
  have h2 : (10000 : ℚ) = ((10000 : ℕ) : ℚ) := by norm_num
  rw [h1, h2, jsRound_natCast_div _ 10000 (by norm_num), Int.toNat_natCast]

theorem luma_le_255 (p : Pixel) (hr : p.r ≤ 255) (hg : p.g ≤ 255) (hb : p.b ≤ 255) :
    luma p ≤ 255 := by
  rw [luma_eq_natDiv]
  omega

theorem luma_lt_256 (p : Pixel) (hr : p.r ≤ 255) (hg : p.g ≤ 255) (hb : p.b ≤ 255) :
    luma p < 256 :=
  Nat.lt_succ_of_le (luma_le_255 p hr hg hb)

/-- Counting lemma: summing the per-value counts of a list over an
initial segment that covers every element recovers the list length. -/
theorem sum_count_range (l : List ℕ) (n : ℕ) (h : ∀ x ∈ l, x < n) :
    ∑ t ∈ Finset.range n, l.count t = l.length := by
  induction l with
  | nil => simp
  | cons a l ih =>
    have ha : a ∈ Finset.range n := Finset.mem_range.mpr (h a (by simp))
    have ihl := ih (fun x hx => h x (List.mem_cons_of_mem a hx))
    simp only [List.count_cons, List.length_cons, beq_iff_eq]
    rw [Finset.sum_add_distrib, ihl]
    have : (∑ t ∈ Finset.range n, if a = t then 1 else 0) = 1 := by
      rw [Finset.sum_ite_eq (Finset.range n) a (fun _ => 1)]
      simp [ha]
    omega

/-- Weighted counting lemma: `∑ t < n, t * count t l = l.sum` when every
element is below `n`. -/
theorem sum_mul_count_range (l : List ℕ) (n : ℕ) (h : ∀ x ∈ l, x < n) :
    ∑ t ∈ Finset.range n, t * l.count t = l.sum := by
  induction l with
  | nil => simp
  | cons a l ih =>
    have ha : a ∈ Finset.range n := Finset.mem_range.mpr (h a (by simp))
    have ihl := ih (fun x hx => h x (List.mem_cons_of_mem a hx))
    simp only [List.count_cons, List.sum_cons, beq_iff_eq]
    have expand : ∀ t, t * (l.count t + if a = t then 1 else 0) =
        t * l.count t + (if a = t then t else 0) := by
      intro t
      by_cases hat : a = t <;> simp [hat, Nat.mul_add]
    rw [Finset.sum_congr rfl (fun t _ => expand t), Finset.sum_add_distrib, ihl]
    have : (∑ t ∈ Finset.range n, if a = t then t else 0) = a := by
      rw [Finset.sum_ite_eq (Finset.range n) a (fun t => t)]
      simp [ha]
    omega

theorem luma_black : luma ⟨0, 0, 0, 255⟩ = 0 := by
  rw [luma_eq_natDiv]; decide

theorem luma_white : luma ⟨255, 255, 255, 255⟩ = 255 := by
  rw [luma_eq_natDiv]; decide

/-! Behaviour of the Otsu scan step. -/

theorem otsuStep_of_done (hist : ℕ → ℕ) (total sum : ℕ) (st : OtsuState) (t : ℕ)
    (h : st.done = true) : otsuStep hist total sum st t = st := by
  simp [otsuStep, h]

theorem foldl_otsuStep_done (hist : ℕ → ℕ) (total sum : ℕ) (st : OtsuState)
    (ts : List ℕ) (h : st.done = true) :
    ts.foldl (otsuStep hist total sum) st = st := by
  induction ts with
  | nil => rfl
  | cons t ts ih => rw [List.foldl_cons, otsuStep_of_done hist total sum st t h, ih]

theorem otsuStep_of_histZero_wBzero (hist : ℕ → ℕ) (total sum : ℕ) (st : OtsuState)
    (t : ℕ) (hz : hist t = 0) (hdone : st.done = false) (hwB : st.wB = 0) :
    otsuStep hist total sum st t = st := by
  obtain ⟨wB, sumB, varMax, thr, done⟩ := st
  dsimp at hdone hwB
  subst hdone hwB
  simp [otsuStep, hz]

theorem foldl_otsuStep_wBzero (hist : ℕ → ℕ) (total sum : ℕ) (st : OtsuState)
    (ts : List ℕ) (hz : ∀ t ∈ ts, hist t = 0) (hdone : st.done = false)
    (hwB : st.wB = 0) :
    ts.foldl (otsuStep hist total sum) st = st := by
  induction ts with
  | nil => rfl
  | cons t ts ih =>
    rw [List.foldl_cons,
      otsuStep_of_histZero_wBzero hist total sum st t (hz t (by simp)) hdone hwB]
    exact ih (fun t ht => hz t (List.mem_cons_of_mem _ ht))

theorem otsuStep_of_histZero_stable (hist : ℕ → ℕ) (total sum : ℕ) (st : OtsuState)
    (t : ℕ) (hz : hist t = 0) (hdone : st.done = false) (hwB : st.wB ≠ 0)
    (hwF : total - st.wB ≠ 0)
    (hvar : ¬ (st.varMax < otsuVar total sum st.wB st.sumB)) :
    otsuStep hist total sum st t = st := by
  obtain ⟨wB, sumB, varMax, thr, done⟩ := st
  dsimp at hdone hwB hwF hvar
  subst hdone
  simp [otsuStep, hz, hwB, hwF, hvar]

theorem foldl_otsuStep_stable (hist : ℕ → ℕ) (total sum : ℕ) (st : OtsuState)
    (ts : List ℕ) (hz : ∀ t ∈ ts, hist t = 0) (hdone : st.done = false)
    (hwB : st.wB ≠ 0) (hwF : total - st.wB ≠ 0)
    (hvar : ¬ (st.varMax < otsuVar total sum st.wB st.sumB)) :
    ts.foldl (otsuStep hist total sum) st = st := by
  induction ts with
  | nil => rfl
  | cons t ts ih =>
    rw [List.foldl_cons,
      otsuStep_of_histZero_stable hist total sum st t (hz t (by simp)) hdone hwB hwF hvar]
    exact ih (fun t ht => hz t (List.mem_cons_of_mem _ ht))

theorem lumas_imgOtsu4 :
    imgOtsu4.data.map luma =
      [0, 0, 255, 255, 0, 0, 255, 255, 0, 0, 255, 255, 0, 0, 255, 255] := by
  simp [imgOtsu4, luma_black, luma_white]

theorem hist_imgOtsu4_zero : computeLuminanceHistogram imgOtsu4 0 = 8 := by
  unfold computeLuminanceHistogram
  rw [lumas_imgOtsu4]
  decide

theorem hist_imgOtsu4_top : computeLuminanceHistogram imgOtsu4 255 = 8 := by
  unfold computeLuminanceHistogram
  rw [lumas_imgOtsu4]
  decide

theorem hist_imgOtsu4_mid (t : ℕ) (h0 : t ≠ 0) (h255 : t ≠ 255) :
    computeLuminanceHistogram imgOtsu4 t = 0 := by
  unfold computeLuminanceHistogram
  rw [lumas_imgOtsu4]
  by_cases hlt : t < 256
  · rw [if_pos hlt, List.count_eq_zero]
    intro hmem
    simp at hmem
    omega
  · rw [if_neg hlt]

theorem sum_imgOtsu4 :
    (∑ t ∈ Finset.range 256, t * computeLuminanceHistogram imgOtsu4 t) = 2040 := by
  have h1 : ∀ t ∈ Finset.range 256,
      t * computeLuminanceHistogram imgOtsu4 t =
        t * ([0, 0, 255, 255, 0, 0, 255, 255, 0, 0, 255, 255, 0, 0, 255, 255] :
          List ℕ).count t := by
    intro t ht
    unfold computeLuminanceHistogram
    rw [lumas_imgOtsu4, if_pos (Finset.mem_range.mp ht)]
  rw [Finset.sum_congr rfl h1,
    sum_mul_count_range _ 256 (by decide)]
  decide

theorem otsuVar_imgOtsu4_pos : (0 : ℚ) < otsuVar 16 2040 8 0 := by
  norm_num [otsuVar]

/-- C1: on the 4×4 two-cluster test image (lumas 0 and 255, eight pixels
each), `otsuThreshold` returns threshold 0 — the earliest maximiser of
the between-class variance, which is tied across all t in [0,254] — and
a binary output identical to the input pattern (luma-0 pixels map to 0
and luma-255 pixels to 255 in R, G and B). -/
theorem otsu_concrete_4x4 : otsuThreshold imgOtsu4 = (0, imgOtsu4) := by
  have htotal : imgOtsu4.width * imgOtsu4.height = 16 := rfl
  have hsplit : List.range 256 = [0] ++ (List.range 254).map (1 + ·) ++ [255] := by
    rw [show (256 : ℕ) = 255 + 1 from rfl, List.range_succ]
    rw [show (255 : ℕ) = 1 + 254 from rfl, List.range_add]
    rfl
  have hstep0 : otsuStep (computeLuminanceHistogram imgOtsu4) 16 2040
      ⟨0, 0, 0, 0, false⟩ 0 = ⟨8, 0, otsuVar 16 2040 8 0, 0, false⟩ := by
    rw [otsuStep]
    simp [hist_imgOtsu4_zero, otsuVar_imgOtsu4_pos]
  have hmidrun : ((List.range 254).map (1 + ·)).foldl
      (otsuStep (computeLuminanceHistogram imgOtsu4) 16 2040)
      ⟨8, 0, otsuVar 16 2040 8 0, 0, false⟩ =
      ⟨8, 0, otsuVar 16 2040 8 0, 0, false⟩ := by
    apply foldl_otsuStep_stable
    · intro t ht
      simp only [List.mem_map, List.mem_range] at ht
      obtain ⟨k, hk, rfl⟩ := ht
      exact hist_imgOtsu4_mid _ (by omega) (by omega)
    · rfl
    · decide
    · decide
    · exact lt_irrefl _
  have hstep255 : otsuStep (computeLuminanceHistogram imgOtsu4) 16 2040
      ⟨8, 0, otsuVar 16 2040 8 0, 0, false⟩ 255 =
      ⟨16, 0, otsuVar 16 2040 8 0, 0, true⟩ := by
    rw [otsuStep]
    simp [hist_imgOtsu4_top]
  have hfold : (List.range 256).foldl
      (otsuStep (computeLuminanceHistogram imgOtsu4) 16 2040) ⟨0, 0, 0, 0, false⟩ =
      ⟨16, 0, otsuVar 16 2040 8 0, 0, true⟩ := by
    rw [hsplit, List.foldl_append, List.foldl_append]
    simp only [List.foldl_cons, List.foldl_nil]
    rw [hstep0, hmidrun, hstep255]
  simp only [otsuThreshold, htotal, sum_imgOtsu4, hfold]
  unfold getGrayscale
  rw [lumas_imgOtsu4]
  decide

/-- C4 counterexample: for the uniform all-black 1×1 image, the Otsu
output pixel is 0, not 255 — `gray > threshold` is false when the gray
value is 0, whatever the threshold — so a uniform image does not always
produce an all-255 output. -/
theorem otsu_uniform_black_cx :
    ¬ ((otsuThreshold ⟨1, 1, [⟨0, 0, 0, 255⟩]⟩).2.data.getD 0 default).r = 255 := by
  simp [otsuThreshold, getGrayscale, grayscaleToImageData, luma_black]

/-- C4 (amended): every uniform image (all pixels one shared RGBA value)
yields Otsu threshold 0; the output is all-255 when the shared luma is
at least 1, and all-0 (in R, G and B, alpha 255) when the shared luma is
0 — as happens for a uniform black image. -/
theorem otsu_uniform_amended (w h : ℕ) (p : Pixel)
    (hwf : (ImageData.mk w h (List.replicate (w * h) p)).wf)
    (hn : 1 ≤ w * h) :
    (otsuThreshold ⟨w, h, List.replicate (w * h) p⟩).1 = 0 ∧
      (otsuThreshold ⟨w, h, List.replicate (w * h) p⟩).2.data =
        List.replicate (w * h)
          (if 1 ≤ luma p then (⟨255, 255, 255, 255⟩ : Pixel) else ⟨0, 0, 0, 255⟩) := by
  have hp : p ∈ List.replicate (w * h) p :=
    List.mem_replicate.mpr ⟨by omega, rfl⟩
  obtain ⟨-, hbound⟩ := hwf
  obtain ⟨hr, hg, hb, -⟩ := hbound p hp
  have hL : luma p < 256 := luma_lt_256 p hr hg hb
  have hmap : (List.replicate (w * h) p).map luma = List.replicate (w * h) (luma p) :=
    List.map_replicate
  have histL : computeLuminanceHistogram ⟨w, h, List.replicate (w * h) p⟩ (luma p)
      = w * h := by
    unfold computeLuminanceHistogram
    simp only [hmap, if_pos hL]
    rw [List.count_replicate_self]
  have histNe : ∀ t, t ≠ luma p →
      computeLuminanceHistogram ⟨w, h, List.replicate (w * h) p⟩ t = 0 := by
    intro t ht
    unfold computeLuminanceHistogram
    simp only [hmap]
    by_cases hlt : t < 256
    · rw [if_pos hlt, List.count_replicate]
      simp [ht, Ne.symm ht]
    · rw [if_neg hlt]
  have hn0 : w * h ≠ 0 := by omega
  have hsplit : List.range 256 =
      (List.range (luma p) ++ [luma p]) ++
        (List.range (255 - luma p)).map ((luma p + 1) + ·) := by
    rw [← List.range_succ, ← List.range_add]
    congr 1
    omega
  have hrun1 : ∀ sum, (List.range (luma p)).foldl
      (otsuStep (computeLuminanceHistogram ⟨w, h, List.replicate (w * h) p⟩)
        (w * h) sum) ⟨0, 0, 0, 0, false⟩ = ⟨0, 0, 0, 0, false⟩ := by
    intro sum
    apply foldl_otsuStep_wBzero
    · intro t ht
      exact histNe t (by simp at ht; omega)
    · rfl
    · rfl
  have hstepL : ∀ sum, otsuStep
      (computeLuminanceHistogram ⟨w, h, List.replicate (w * h) p⟩) (w * h) sum
      ⟨0, 0, 0, 0, false⟩ (luma p) = ⟨w * h, 0, 0, 0, true⟩ := by
    intro sum
    rw [otsuStep]
    simp [histL, hn0]
  have hfold : ∀ sum, (List.range 256).foldl
      (otsuStep (computeLuminanceHistogram ⟨w, h, List.replicate (w * h) p⟩)
        (w * h) sum) ⟨0, 0, 0, 0, false⟩ = ⟨w * h, 0, 0, 0, true⟩ := by
    intro sum
    rw [hsplit, List.foldl_append, List.foldl_append, hrun1, List.foldl_cons,
      List.foldl_nil, hstepL]
    exact foldl_otsuStep_done _ _ _ _ _ rfl
  constructor
  · simp only [otsuThreshold, hfold]
  · simp only [otsuThreshold, hfold, getGrayscale, grayscaleToImageData]
    simp only [hmap, List.map_replicate]
    by_cases hL0 : 1 ≤ luma p
    · rw [if_pos hL0]
      have : (0 : ℕ) < luma p := hL0
      simp [this]
    · rw [if_neg hL0]
      have : luma p = 0 := by omega
      simp [this]

/-- C7: for every well-formed buffer the 256 luminance-histogram bins
sum to `width*height` — every pixel's rounded luma lands in [0,255]. -/
theorem histogram_conservation (img : ImageData) (hwf : img.wf) :
    (∑ t ∈ Finset.range 256, computeLuminanceHistogram img t) =
      img.width * img.height := by
  obtain ⟨hlen, hbound⟩ := hwf
  have h1 : ∀ t ∈ Finset.range 256,
      computeLuminanceHistogram img t = (img.data.map luma).count t := by
    intro t ht
    unfold computeLuminanceHistogram
    rw [if_pos (Finset.mem_range.mp ht)]
  have h2 : ∀ x ∈ img.data.map luma, x < 256 := by
    intro x hx
    obtain ⟨p, hp, rfl⟩ := List.mem_map.mp hx
    obtain ⟨hr, hg, hb, -⟩ := hbound p hp
    exact luma_lt_256 p hr hg hb
  rw [Finset.sum_congr rfl h1, sum_count_range _ 256 h2, List.length_map, hlen]

theorem histogram_conservation_witness :
    (ImageData.mk 2 2 [⟨1, 2, 3, 4⟩, ⟨250, 250, 250, 255⟩, ⟨0, 0, 0, 0⟩,
        ⟨9, 9, 9, 9⟩]).wf ∧
    (∑ t ∈ Finset.range 256, computeLuminanceHistogram
        ⟨2, 2, [⟨1, 2, 3, 4⟩, ⟨250, 250, 250, 255⟩, ⟨0, 0, 0, 0⟩, ⟨9, 9, 9, 9⟩]⟩ t) =
      2 * 2 :=
  ⟨by decide, histogram_conservation _ (by decide)⟩

/-- C5 counterexample: on a 1×1 input whose alpha is 128, the Otsu
binary output carries alpha 255, not the input's 128 —
`grayscaleToImageData` unconditionally writes alpha 255. -/
theorem binary_alpha_not_preserved_cx :
    ¬ ((otsuThreshold ⟨1, 1, [⟨0, 0, 0, 128⟩]⟩).2.data.getD 0 default).a =
      ((⟨1, 1, [⟨0, 0, 0, 128⟩]⟩ : ImageData).data.getD 0 default).a := by
  simp [otsuThreshold, getGrayscale, grayscaleToImageData]

/-- Pixels produced by `grayscaleToImageData` from a 0/255 gray buffer:
alpha 255 and R = G = B with the common value 0 or 255. -/
theorem binaryPixelShape (out : List ℕ) (wd ht i : ℕ) (hi : i < out.length)
    (hbin : ∀ v ∈ out, v = 0 ∨ v = 255) :
    ((grayscaleToImageData out wd ht).data.getD i default).a = 255 ∧
      ((grayscaleToImageData out wd ht).data.getD i default).g =
        ((grayscaleToImageData out wd ht).data.getD i default).r ∧
      ((grayscaleToImageData out wd ht).data.getD i default).b =
        ((grayscaleToImageData out wd ht).data.getD i default).r ∧
      (((grayscaleToImageData out wd ht).data.getD i default).r = 0 ∨
        ((grayscaleToImageData out wd ht).data.getD i default).r = 255) := by
  unfold grayscaleToImageData
  rw [List.getD_eq_getElem _ _ (by simpa using hi)]
  simp only [List.getElem_map]
  exact ⟨trivial, trivial, trivial, hbin _ (List.getElem_mem _)⟩

/-- C5 (amended): every pixel of the binary outputs of `otsuThreshold`
and of the fallback path of `adaptiveMeanThreshold` has alpha 255 (the
input alpha is not copied; it is preserved only when it was already
255), and R = G = B with the common value 0 or 255. -/
theorem binary_output_shape (img : ImageData) (hwf : img.wf) (blockSize : ℕ)
    (C : ℚ) (i : ℕ) (hi : i < img.width * img.height) :
    (((otsuThreshold img).2.data.getD i default).a = 255 ∧
      ((otsuThreshold img).2.data.getD i default).g =
        ((otsuThreshold img).2.data.getD i default).r ∧
      ((otsuThreshold img).2.data.getD i default).b =
        ((otsuThreshold img).2.data.getD i default).r ∧
      (((otsuThreshold img).2.data.getD i default).r = 0 ∨
        ((otsuThreshold img).2.data.getD i default).r = 255)) ∧
    (((adaptiveMeanThreshold img blockSize C).data.getD i default).a = 255 ∧
      ((adaptiveMeanThreshold img blockSize C).data.getD i default).g =
        ((adaptiveMeanThreshold img blockSize C).data.getD i default).r ∧
      ((adaptiveMeanThreshold img blockSize C).data.getD i default).b =
        ((adaptiveMeanThreshold img blockSize C).data.getD i default).r ∧
      (((adaptiveMeanThreshold img blockSize C).data.getD i default).r = 0 ∨
        ((adaptiveMeanThreshold img blockSize C).data.getD i default).r = 255)) := by
  obtain ⟨hlen, -⟩ := hwf
  constructor
  · simp only [otsuThreshold]
    apply binaryPixelShape
    · simpa [getGrayscale, hlen] using hi
    · intro v hv
      obtain ⟨g, -, rfl⟩ := List.mem_map.mp hv
      exact Or.symm (ite_eq_or_eq _ _ _)
  · simp only [adaptiveMeanThreshold]
    apply binaryPixelShape
    · simpa using hi
    · intro v hv
      obtain ⟨j, -, rfl⟩ := List.mem_map.mp hv
      exact Or.symm (ite_eq_or_eq _ _ _)

theorem binary_output_shape_witness :
    (ImageData.mk 1 1 [⟨3, 4, 5, 6⟩]).wf ∧ (0 : ℕ) < 1 * 1 ∧
    ((((otsuThreshold ⟨1, 1, [⟨3, 4, 5, 6⟩]⟩).2.data.getD 0 default).a = 255 ∧
      ((otsuThreshold ⟨1, 1, [⟨3, 4, 5, 6⟩]⟩).2.data.getD 0 default).g =
        ((otsuThreshold ⟨1, 1, [⟨3, 4, 5, 6⟩]⟩).2.data.getD 0 default).r ∧
      ((otsuThreshold ⟨1, 1, [⟨3, 4, 5, 6⟩]⟩).2.data.getD 0 default).b =
        ((otsuThreshold ⟨1, 1, [⟨3, 4, 5, 6⟩]⟩).2.data.getD 0 default).r ∧
      (((otsuThreshold ⟨1, 1, [⟨3, 4, 5, 6⟩]⟩).2.data.getD 0 default).r = 0 ∨
        ((otsuThreshold ⟨1, 1, [⟨3, 4, 5, 6⟩]⟩).2.data.getD 0 default).r = 255)) ∧
    (((adaptiveMeanThreshold ⟨1, 1, [⟨3, 4, 5, 6⟩]⟩ 3 (1/2)).data.getD 0 default).a = 255 ∧
      ((adaptiveMeanThreshold ⟨1, 1, [⟨3, 4, 5, 6⟩]⟩ 3 (1/2)).data.getD 0 default).g =
        ((adaptiveMeanThreshold ⟨1, 1, [⟨3, 4, 5, 6⟩]⟩ 3 (1/2)).data.getD 0 default).r ∧
      ((adaptiveMeanThreshold ⟨1, 1, [⟨3, 4, 5, 6⟩]⟩ 3 (1/2)).data.getD 0 default).b =
        ((adaptiveMeanThreshold ⟨1, 1, [⟨3, 4, 5, 6⟩]⟩ 3 (1/2)).data.getD 0 default).r ∧
      (((adaptiveMeanThreshold ⟨1, 1, [⟨3, 4, 5, 6⟩]⟩ 3 (1/2)).data.getD 0 default).r = 0 ∨
        ((adaptiveMeanThreshold ⟨1, 1, [⟨3, 4, 5, 6⟩]⟩ 3 (1/2)).data.getD 0 default).r = 255))) :=
  ⟨by decide, by decide, binary_output_shape _ (by decide) 3 (1/2) 0 (by decide)⟩

theorem le_foldl_max (l : List ℕ) (a : ℕ) : a ≤ l.foldl max a := by
  induction l generalizing a with
  | nil => exact le_refl a
  | cons b l ih => exact le_trans (le_max_left a b) (ih (max a b))

theorem mem_le_foldl_max (l : List ℕ) (x : ℕ) (hx : x ∈ l) :
    ∀ a, x ≤ l.foldl max a := by
  induction l with
  | nil => cases hx
  | cons b l ih =>
    intro a
    rcases List.mem_cons.mp hx with rfl | hx2
    · exact le_trans (le_max_right a x) (le_foldl_max l (max a x))
    · exact ih hx2 (max a b)

theorem foldl_min_le (l : List ℕ) (a : ℕ) : l.foldl min a ≤ a := by
  induction l generalizing a with
  | nil => exact le_refl a
  | cons b l ih => exact le_trans (ih (min a b)) (min_le_left a b)

theorem foldl_min_le_mem (l : List ℕ) (x : ℕ) (hx : x ∈ l) :
    ∀ a, l.foldl min a ≤ x := by
  induction l with
  | nil => cases hx
  | cons b l ih =>
    intro a
    rcases List.mem_cons.mp hx with rfl | hx2
    · exact le_trans (foldl_min_le l (min a x)) (min_le_right a x)
    · exact ih hx2 (min a b)

theorem clampIdx_of_lt (y h : ℕ) (hy : y < h) :
    clampIdx (y : ℤ) ((h : ℤ) - 1) = y := by
  unfold clampIdx
  rw [max_eq_right (by positivity), min_eq_right (by omega)]
  simp

theorem rowmajor_lt (w h x y : ℕ) (hx : x < w) (hy : y < h) : y * w + x < w * h := by
  calc y * w + x < y * w + w := by omega
    _ = (y + 1) * w := by ring
    _ ≤ h * w := Nat.mul_le_mul_right w hy
    _ = w * h := Nat.mul_comm h w

theorem getD_map_range (f : ℕ → ℕ) (n i : ℕ) (hi : i < n) :
    ((List.range n).map f).getD i 0 = f i := by
  rw [List.getD_eq_getElem _ _ (by simpa using hi), List.getElem_map,
    List.getElem_range]

theorem rowmajor_div (w x y : ℕ) (hx : x < w) : (y * w + x) / w = y := by
  rw [Nat.add_comm, Nat.add_mul_div_right _ _ (show 0 < w by omega),
    Nat.div_eq_of_lt hx, Nat.zero_add]

theorem rowmajor_mod (w x y : ℕ) (hx : x < w) : (y * w + x) % w = x := by
  rw [Nat.add_comm, Nat.add_mul_mod_self_right, Nat.mod_eq_of_lt hx]

/-- C10: the fallback grayscale erosion never exceeds the original value
and the fallback dilation never falls below it at any in-bounds pixel —
the clamped neighborhood always contains the pixel itself. -/
theorem erode_le_self_le_dilate (gray : List ℕ) (w h r x y : ℕ)
    (hx : x < w) (hy : y < h) :
    (erodeGray gray w h r).getD (y * w + x) 0 ≤ gray.getD (y * w + x) 0 ∧
      gray.getD (y * w + x) 0 ≤ (dilateGray gray w h r).getD (y * w + x) 0 := by
  have hidx : y * w + x < w * h := rowmajor_lt w h x y hx hy
  have hcy : clampIdx ((y : ℤ) + (r : ℤ) - (r : ℤ)) ((h : ℤ) - 1) = y := by
    rw [show (y : ℤ) + (r : ℤ) - (r : ℤ) = (y : ℤ) by ring, clampIdx_of_lt y h hy]
  have hcx : clampIdx ((x : ℤ) + (r : ℤ) - (r : ℤ)) ((w : ℤ) - 1) = x := by
    rw [show (x : ℤ) + (r : ℤ) - (r : ℤ) = (x : ℤ) by ring, clampIdx_of_lt x w hx]
  have hrmem : r ∈ List.range (2 * r + 1) := List.mem_range.mpr (by omega)
  constructor
  · unfold erodeGray
    rw [getD_map_range _ _ _ hidx]
    dsimp only
    rw [rowmajor_div w x y hx, rowmajor_mod w x y hx]
    apply foldl_min_le_mem
    apply List.mem_flatMap.mpr
    refine ⟨r, hrmem, ?_⟩
    apply List.mem_map.mpr
    refine ⟨r, hrmem, ?_⟩
    dsimp only
    rw [hcy, hcx]
  · unfold dilateGray
    rw [getD_map_range _ _ _ hidx]
    dsimp only
    rw [rowmajor_div w x y hx, rowmajor_mod w x y hx]
    apply mem_le_foldl_max
    apply List.mem_flatMap.mpr
    refine ⟨r, hrmem, ?_⟩
    apply List.mem_map.mpr
    refine ⟨r, hrmem, ?_⟩
    dsimp only
    rw [hcy, hcx]

theorem erode_le_self_le_dilate_witness :
    (0 : ℕ) < 2 ∧ (1 : ℕ) < 2 ∧
    ((erodeGray [10, 20, 30, 40] 2 2 1).getD (1 * 2 + 0) 0 ≤
        ([10, 20, 30, 40] : List ℕ).getD (1 * 2 + 0) 0 ∧
      ([10, 20, 30, 40] : List ℕ).getD (1 * 2 + 0) 0 ≤
        (dilateGray [10, 20, 30, 40] 2 2 1).getD (1 * 2 + 0) 0) :=
  ⟨by decide, by decide, erode_le_self_le_dilate [10, 20, 30, 40] 2 2 1 0 1
    (by decide) (by decide)⟩

theorem jsRound_eq (q : ℚ) (n : ℤ) (h1 : (n : ℚ) ≤ q + 1/2) (h2 : q + 1/2 < n + 1) :
    jsRound q = n := by
  unfold jsRound
  rw [Int.floor_eq_iff]
  exact ⟨by exact_mod_cast h1, by exact_mod_cast h2⟩

/-- C6 evidence: on the 1×1 image with pixel (128,64,32,255) the
denominator `w*h - 1` is zero, every LUT entry degenerates to 0 (the
`Uint8Array` coercion of the `NaN`/`Infinity` quotient), and
`equalizeRGB` returns an all-zero RGB pixel instead of the input. -/
theorem equalizeRGB_one_pixel_zeroes :
    equalizeRGB ⟨1, 1, [⟨128, 64, 32, 255⟩]⟩ = ⟨1, 1, [⟨0, 0, 0, 255⟩]⟩ := by
  simp [equalizeRGB, lut, lutEntry]

/-- Evaluation of a stored LUT entry on natural-number data: for a
nonzero denominator and `h0 ≤ s`, the rounded quotient is the natural
division `(2*((s-h0)*255) + den) / (2*den)`, wrapped modulo 256. -/
theorem lutEntry_eval (s h0 den : ℕ) (hden : 0 < den) (hs : h0 ≤ s) :
    lutEntry s h0 den = ((2 * ((s - h0) * 255) + den) / (2 * den)) % 256 := by
  unfold lutEntry
  rw [if_neg (by omega)]
  have h1 : ((s : ℚ) - (h0 : ℚ)) / (den : ℚ) * 255 =
      (((s - h0) * 255 : ℕ) : ℚ) / ((den : ℕ) : ℚ) := by
    rw [Nat.cast_mul, Nat.cast_sub hs]
    push_cast
    ring
  rw [h1, jsRound_natCast_div _ _ hden]
  omega

/-- C2 counterexample: for the 2×1 image with red-channel values 1 and 2
(so `hist[0] = 0` and `W*H - 1 = 1`), the stored red LUT has
`LUT[1] = 255` but `LUT[2] = round(510) mod 256 = 254`: the stored table
is not non-decreasing. -/
theorem equalize_lut_not_monotone_cx :
    ¬ (lut ⟨2, 1, [⟨1, 0, 0, 255⟩, ⟨2, 0, 0, 255⟩]⟩ Pixel.r 1 ≤
        lut ⟨2, 1, [⟨1, 0, 0, 255⟩, ⟨2, 0, 0, 255⟩]⟩ Pixel.r 2) := by
  have e1 : lut ⟨2, 1, [⟨1, 0, 0, 255⟩, ⟨2, 0, 0, 255⟩]⟩ Pixel.r 1 = 255 := by
    unfold lut
    rw [lutEntry_eval _ _ _ (by decide) (by decide)]
    decide
  have e2 : lut ⟨2, 1, [⟨1, 0, 0, 255⟩, ⟨2, 0, 0, 255⟩]⟩ Pixel.r 2 = 254 := by
    unfold lut
    rw [lutEntry_eval _ _ _ (by decide) (by decide)]
    decide
  omega

/-- C2 (amended): the stored per-channel equalization LUT is
non-decreasing in the input level whenever the channel's darkest bin is
populated (`hist[0] ≥ 1`, which keeps every rounded entry within
[0,255] so the `Uint8Array` store does not wrap) and `W*H ≥ 2`; with
`hist[0] = 0` top entries can exceed 255 and wrap modulo 256, breaking
monotonicity. -/
theorem equalize_lut_monotone_amended (img : ImageData) (f : Pixel → ℕ)
    (hf : f = Pixel.r ∨ f = Pixel.g ∨ f = Pixel.b) (hwf : img.wf)
    (hwh : 2 ≤ img.width * img.height) (h0 : 1 ≤ channelHist img f 0)
    (v v' : ℕ) (hvv : v ≤ v') (hv' : v' ≤ 255) :
    lut img f v ≤ lut img f v' := by
  obtain ⟨hlen, hbound⟩ := hwf
  have hden : 0 < img.width * img.height - 1 := by omega
  have hflt : ∀ xval ∈ img.data.map f, xval < 256 := by
    intro xval hx
    obtain ⟨p, hp, rfl⟩ := List.mem_map.mp hx
    obtain ⟨hr, hg, hb, -⟩ := hbound p hp
    rcases hf with rfl | rfl | rfl <;> omega
  have h0v : channelHist img f 0 ≤ cdf (channelHist img f) v := by
    unfold cdf
    exact Finset.single_le_sum (fun i _ => Nat.zero_le _)
      (Finset.mem_range.mpr (by omega))
  have hmono : cdf (channelHist img f) v ≤ cdf (channelHist img f) v' := by
    unfold cdf
    exact Finset.sum_le_sum_of_subset (Finset.range_subset.mpr (by omega))
  have hupper : cdf (channelHist img f) v' ≤ img.width * img.height := by
    unfold cdf
    calc ∑ t ∈ Finset.range (v' + 1), channelHist img f t
        ≤ ∑ t ∈ Finset.range 256, channelHist img f t :=
          Finset.sum_le_sum_of_subset (Finset.range_subset.mpr (by omega))
      _ = img.width * img.height := by
          have h1 : ∀ t ∈ Finset.range 256,
              channelHist img f t = (img.data.map f).count t := by
            intro t ht
            unfold channelHist
            rw [if_pos (Finset.mem_range.mp ht)]
          rw [Finset.sum_congr rfl h1, sum_count_range _ 256 hflt,
            List.length_map, hlen]
  unfold lut
  rw [lutEntry_eval _ _ _ hden h0v,
    lutEntry_eval _ _ _ hden (le_trans h0v hmono)]
  set h0b := channelHist img f 0
  set s := cdf (channelHist img f) v
  set sp := cdf (channelHist img f) v'
  set den := img.width * img.height - 1 with hdendef
  have hc : s - h0b ≤ sp - h0b := Nat.sub_le_sub_right hmono _
  have hcp : sp - h0b ≤ den := by omega
  have hnum : 2 * ((s - h0b) * 255) + den ≤ 2 * ((sp - h0b) * 255) + den := by
    have := Nat.mul_le_mul_right 255 hc
    omega
  have hAA : (2 * ((s - h0b) * 255) + den) / (2 * den) ≤
      (2 * ((sp - h0b) * 255) + den) / (2 * den) := Nat.div_le_div_right hnum
  have hA255 : (2 * ((sp - h0b) * 255) + den) / (2 * den) ≤ 255 := by
    have hnum2 : 2 * ((sp - h0b) * 255) + den ≤ 511 * den := by
      have := Nat.mul_le_mul_right 255 hcp
      omega
    refine le_trans (Nat.div_le_div_right hnum2) ?_
    have hlt : 511 * den / (2 * den) < 256 :=
      (Nat.div_lt_iff_lt_mul (by omega)).mpr (by omega)
    omega
  have hmodA : (2 * ((s - h0b) * 255) + den) / (2 * den) % 256 =
      (2 * ((s - h0b) * 255) + den) / (2 * den) :=
    Nat.mod_eq_of_lt (by omega)
  have hmodAp : (2 * ((sp - h0b) * 255) + den) / (2 * den) % 256 =
      (2 * ((sp - h0b) * 255) + den) / (2 * den) :=
    Nat.mod_eq_of_lt (by omega)
  omega

theorem equalize_lut_monotone_witness :
    ((ImageData.mk 2 1 [⟨0, 0, 0, 255⟩, ⟨5, 5, 5, 255⟩]).wf ∧
        2 ≤ (2 : ℕ) * 1 ∧
        1 ≤ channelHist ⟨2, 1, [⟨0, 0, 0, 255⟩, ⟨5, 5, 5, 255⟩]⟩ Pixel.r 0 ∧
        (1 : ℕ) ≤ 200 ∧ (200 : ℕ) ≤ 255) ∧
      lut ⟨2, 1, [⟨0, 0, 0, 255⟩, ⟨5, 5, 5, 255⟩]⟩ Pixel.r 1 ≤
        lut ⟨2, 1, [⟨0, 0, 0, 255⟩, ⟨5, 5, 5, 255⟩]⟩ Pixel.r 200 :=
  ⟨⟨by decide, by decide, by decide, by decide, by decide⟩,
    equalize_lut_monotone_amended _ _ (Or.inl rfl) (by decide) (by decide)
      (by decide) 1 200 (by decide) (by decide)⟩

theorem getD_range_map {α : Type} (f : ℕ → α) (d : α) (n i : ℕ) (hi : i < n) :
    ((List.range n).map f).getD i d = f i := by
  rw [List.getD_eq_getElem _ _ (by simpa using hi), List.getElem_map,
    List.getElem_range]

/-- Any sorted permutation of a list equals its ascending merge sort. -/
theorem sorted_perm_eq_mergeSort (l s : List ℕ) (hp : s.Perm l)
    (hs : s.Sorted (· ≤ ·)) :
    s = l.mergeSort (fun a b => decide (a ≤ b)) := by
  apply List.eq_of_perm_of_sorted
    (hp.trans (List.mergeSort_perm l (fun a b => decide (a ≤ b))).symm) hs
  have hpw : (l.mergeSort (fun a b => decide (a ≤ b))).Pairwise
      (fun a b => decide (a ≤ b) = true) :=
    List.sorted_mergeSort
      (fun a b c h1 h2 => by
        simp only [decide_eq_true_eq] at h1 h2 ⊢
        omega)
      (fun a b => by
        rcases Nat.le_total a b with h | h <;> simp [h]) l
  exact hpw.imp (fun h => by simpa using h)

/-- C8: each channel of an `applyMedian` fallback output pixel is the
element at index `floor((2r+1)²/2)` of the ascending sort of that
channel's clamped-window values (stated against any sorted permutation
of the window multiset), and the output alpha is the center pixel's
alpha. -/
theorem applyMedian_sorted_select (img : ImageData) (radius x y : ℕ)
    (hx : x < img.width) (hy : y < img.height)
    (sr sg sb : List ℕ)
    (hsrP : sr.Perm (windowVals img Pixel.r radius x y))
    (hsrS : sr.Sorted (· ≤ ·))
    (hsgP : sg.Perm (windowVals img Pixel.g radius x y))
    (hsgS : sg.Sorted (· ≤ ·))
    (hsbP : sb.Perm (windowVals img Pixel.b radius x y))
    (hsbS : sb.Sorted (· ≤ ·)) :
    (applyMedian img radius).data.getD (y * img.width + x) default =
      ⟨sr.getD ((2 * radius + 1) * (2 * radius + 1) / 2) 0,
       sg.getD ((2 * radius + 1) * (2 * radius + 1) / 2) 0,
       sb.getD ((2 * radius + 1) * (2 * radius + 1) / 2) 0,
       (img.data.getD (y * img.width + x) default).a⟩ := by
  have hidx : y * img.width + x < img.width * img.height :=
    rowmajor_lt _ _ _ _ hx hy
  unfold applyMedian
  rw [getD_range_map _ _ _ _ hidx]
  dsimp only
  rw [rowmajor_div _ x y hx, rowmajor_mod _ x y hx]
  rw [sorted_perm_eq_mergeSort _ _ hsrP hsrS,
    sorted_perm_eq_mergeSort _ _ hsgP hsgS,
    sorted_perm_eq_mergeSort _ _ hsbP hsbS]

theorem applyMedian_sorted_select_witness :
    ((0 : ℕ) < 1 ∧
      ([7] : List ℕ).Perm (windowVals ⟨1, 1, [⟨7, 8, 9, 6⟩]⟩ Pixel.r 0 0 0) ∧
      ([7] : List ℕ).Sorted (· ≤ ·) ∧
      ([8] : List ℕ).Perm (windowVals ⟨1, 1, [⟨7, 8, 9, 6⟩]⟩ Pixel.g 0 0 0) ∧
      ([9] : List ℕ).Perm (windowVals ⟨1, 1, [⟨7, 8, 9, 6⟩]⟩ Pixel.b 0 0 0)) ∧
    (applyMedian ⟨1, 1, [⟨7, 8, 9, 6⟩]⟩ 0).data.getD (0 * 1 + 0) default =
      ⟨([7] : List ℕ).getD ((2 * 0 + 1) * (2 * 0 + 1) / 2) 0,
       ([8] : List ℕ).getD ((2 * 0 + 1) * (2 * 0 + 1) / 2) 0,
       ([9] : List ℕ).getD ((2 * 0 + 1) * (2 * 0 + 1) / 2) 0,
       ((⟨1, 1, [⟨7, 8, 9, 6⟩]⟩ : ImageData).data.getD (0 * 1 + 0) default).a⟩ :=
  ⟨⟨by decide, by decide, by decide, by decide, by decide⟩,
    applyMedian_sorted_select ⟨1, 1, [⟨7, 8, 9, 6⟩]⟩ 0 0 0 (by decide) (by decide)
      [7] [8] [9] (by decide) (by decide) (by decide) (by decide) (by decide)
      (by decide)⟩

theorem rgbToHls_128_64_32 : rgbToHls 128 64 32 = (1/18, 16/51, 3/5) := by
  norm_num [rgbToHls, max_def, min_def]

theorem hlsToRgb_of_rgbToHls_128_64_32 :
    hlsToRgb (1/18) (16/51) (3/5) = (128, 64, 32) := by
  have j128 : jsRound (128 : ℚ) = 128 := jsRound_eq _ 128 (by norm_num) (by norm_num)
  have j64 : jsRound (64 : ℚ) = 64 := jsRound_eq _ 64 (by norm_num) (by norm_num)
  have j32 : jsRound (32 : ℚ) = 32 := jsRound_eq _ 32 (by norm_num) (by norm_num)
  norm_num [hlsToRgb, hue2rgb, j128, j64, j32]

/-- C9: the HLS round trip on (128, 64, 32) lands within ±1 per channel
after rounding — in the exact-rational model it is in fact exact. -/
theorem hls_roundTrip_concrete :
    ((hlsToRgb (rgbToHls 128 64 32).1 (rgbToHls 128 64 32).2.1
        (rgbToHls 128 64 32).2.2).1 - 128).natAbs ≤ 1 ∧
    ((hlsToRgb (rgbToHls 128 64 32).1 (rgbToHls 128 64 32).2.1
        (rgbToHls 128 64 32).2.2).2.1 - 64).natAbs ≤ 1 ∧
    ((hlsToRgb (rgbToHls 128 64 32).1 (rgbToHls 128 64 32).2.1
        (rgbToHls 128 64 32).2.2).2.2 - 32).natAbs ≤ 1 := by
  rw [rgbToHls_128_64_32]
  dsimp only
  rw [hlsToRgb_of_rgbToHls_128_64_32]
  dsimp only
  omega

theorem getD_le_255 (l : List ℕ) (hg : ∀ v ∈ l, v ≤ 255) (i : ℕ) :
    l.getD i 0 ≤ 255 := by
  by_cases hi : i < l.length
  · rw [List.getD_eq_getElem _ _ hi]
    exact hg _ (List.getElem_mem _)
  · rw [List.getD_eq_default _ _ (by omega)]
    exact Nat.zero_le _

theorem getGrayscale_le_255 (img : ImageData) (hwf : img.wf) :
    ∀ v ∈ getGrayscale img, v ≤ 255 := by
  intro v hv
  obtain ⟨p, hp, rfl⟩ := List.mem_map.mp hv
  obtain ⟨hr, hg, hb, -⟩ := hwf.2 p hp
  exact luma_le_255 p hr hg hb

theorem rowSum_le (gray : List ℕ) (w y x : ℕ) (hg : ∀ v ∈ gray, v ≤ 255) :
    rowSum gray w y x ≤ 255 * (x + 1) := by
  unfold rowSum
  calc ∑ px ∈ Finset.range (x + 1), gray.getD (y * w + px) 0
      ≤ ∑ _px ∈ Finset.range (x + 1), 255 :=
        Finset.sum_le_sum (fun i _ => getD_le_255 gray hg _)
    _ = 255 * (x + 1) := by
        rw [Finset.sum_const, Finset.card_range, smul_eq_mul]
        ring

theorem integralExact_le (gray : List ℕ) (w : ℕ) (hg : ∀ v ∈ gray, v ≤ 255) :
    ∀ x y, integralExact gray w x y ≤ 255 * (x * y) := by
  intro x y
  induction y with
  | zero => cases x <;> simp [integralExact]
  | succ y ih =>
    cases x with
    | zero => simp [integralExact]
    | succ xp =>
      have h1 : integralExact gray w (xp + 1) (y + 1) =
          integralExact gray w (xp + 1) y + rowSum gray w y xp := rfl
      rw [h1]
      calc integralExact gray w (xp + 1) y + rowSum gray w y xp
          ≤ 255 * ((xp + 1) * y) + 255 * (xp + 1) :=
            Nat.add_le_add ih (rowSum_le gray w y xp hg)
        _ = 255 * ((xp + 1) * (y + 1)) := by ring

theorem integral_eq_exact (gray : List ℕ) (w h : ℕ) (hg : ∀ v ∈ gray, v ≤ 255)
    (hcap : 255 * (w * h) < 2 ^ 32) :
    ∀ x y, x ≤ w → y ≤ h → integral gray w x y = integralExact gray w x y := by
  intro x y
  induction y with
  | zero =>
    intro _ _
    cases x <;> rfl
  | succ y ih =>
    intro hxw hyh
    cases x with
    | zero => rfl
    | succ xp =>
      have h1 : integral gray w (xp + 1) (y + 1) =
          (integral gray w (xp + 1) y + rowSum gray w y xp) % 2 ^ 32 := rfl
      have h2 : integralExact gray w (xp + 1) (y + 1) =
          integralExact gray w (xp + 1) y + rowSum gray w y xp := rfl
      rw [h1, ih hxw (by omega), ← h2, Nat.mod_eq_of_lt]
      calc integralExact gray w (xp + 1) (y + 1)
          ≤ 255 * ((xp + 1) * (y + 1)) := integralExact_le gray w hg _ _
        _ ≤ 255 * (w * h) := by
            have := Nat.mul_le_mul hxw (show y + 1 ≤ h by omega)
            omega
        _ < 2 ^ 32 := hcap

theorem integralExact_pixel (gray : List ℕ) (w x y : ℕ) :
    (integralExact gray w (x + 1) (y + 1) : ℤ) -
      (integralExact gray w (x + 1) y : ℤ) -
      (integralExact gray w x (y + 1) : ℤ) + (integralExact gray w x y : ℤ) =
      (gray.getD (y * w + x) 0 : ℤ) := by
  cases x with
  | zero =>
    have h1 : integralExact gray w 1 (y + 1) =
        integralExact gray w 1 y + rowSum gray w y 0 := rfl
    have h0 : integralExact gray w 0 (y + 1) = 0 := rfl
    have h0q : integralExact gray w 0 y = 0 := by cases y <;> rfl
    rw [h1, h0, h0q]
    unfold rowSum
    rw [Finset.sum_range_one]
    push_cast
    ring
  | succ xp =>
    have h1 : integralExact gray w (xp + 1 + 1) (y + 1) =
        integralExact gray w (xp + 1 + 1) y + rowSum gray w y (xp + 1) := rfl
    have h2 : integralExact gray w (xp + 1) (y + 1) =
        integralExact gray w (xp + 1) y + rowSum gray w y xp := rfl
    have h3 : rowSum gray w y (xp + 1) =
        rowSum gray w y xp + gray.getD (y * w + (xp + 1)) 0 := by
      unfold rowSum
      rw [Finset.sum_range_succ]
    rw [h1, h2, h3]
    push_cast
    ring

theorem getD_grayscaleToImageData (out : List ℕ) (wd ht i : ℕ)
    (hi : i < out.length) :
    (grayscaleToImageData out wd ht).data.getD i default =
      ⟨out.getD i 0, out.getD i 0, out.getD i 0, 255⟩ := by
  unfold grayscaleToImageData
  rw [List.getD_eq_getElem _ _ (by simpa using hi), List.getElem_map,
    List.getD_eq_getElem _ _ hi]

theorem getD_g2i_range_map (f : ℕ → ℕ) (wd ht n i : ℕ) (hi : i < n) :
    (grayscaleToImageData ((List.range n).map f) wd ht).data.getD i default =
      ⟨f i, f i, f i, 255⟩ := by
  unfold grayscaleToImageData
  rw [List.getD_eq_getElem _ _ (by simpa using hi)]
  simp only [List.getElem_map, List.getElem_range]

/-- C3 (amended): with `blockSize = 1` (radius 0) the window mean equals
the pixel's own gray value, so the fallback `adaptiveMeanThreshold`
writes 255 exactly when `0 < C` — not when `C < 0` as the claim states —
at every pixel of every well-formed image whose total gray mass cannot
wrap the `Uint32Array` integral image. -/
theorem adaptive_blockOne_amended (img : ImageData) (hwf : img.wf)
    (hcap : 255 * (img.width * img.height) < 2 ^ 32) (C : ℚ) (x y : ℕ)
    (hx : x < img.width) (hy : y < img.height) :
    (((adaptiveMeanThreshold img 1 C).data.getD (y * img.width + x) default).r
      = 255) ↔ 0 < C := by
  have hg : ∀ v ∈ getGrayscale img, v ≤ 255 := getGrayscale_le_255 img hwf
  have hidx : y * img.width + x < img.width * img.height :=
    rowmajor_lt _ _ _ _ hx hy
  simp only [adaptiveMeanThreshold]
  rw [getD_g2i_range_map _ _ _ _ _ hidx]
  dsimp only
  rw [rowmajor_div _ x y hx, rowmajor_mod _ x y hx]
  rw [show (1 : ℕ) / 2 = 0 from rfl]
  simp only [Nat.sub_zero, Nat.add_zero]
  have hminx : (img.width - 1) ⊓ x = x := min_eq_right (by omega)
  have hminy : (img.height - 1) ⊓ y = y := min_eq_right (by omega)
  simp only [hminx, hminy, Nat.sub_self, Nat.zero_add, Nat.one_mul, Nat.mul_one]
  have hie1 := integral_eq_exact _ img.width img.height hg hcap (x + 1) (y + 1)
    (by omega) (by omega)
  have hie2 := integral_eq_exact _ img.width img.height hg hcap (x + 1) y
    (by omega) (by omega)
  have hie3 := integral_eq_exact _ img.width img.height hg hcap x (y + 1)
    (by omega) (by omega)
  have hie4 := integral_eq_exact _ img.width img.height hg hcap x y
    (by omega) (by omega)
  simp only [hie1, hie2, hie3, hie4, integralExact_pixel, Nat.cast_one, div_one]
  push_cast
  constructor
  · intro h255
    by_contra hC
    rw [if_neg (by push_neg at hC ⊢; linarith)] at h255
    exact absurd h255 (by omega)
  · intro hC
    rw [if_pos (by linarith)]

theorem adaptive_blockOne_witness :
    (ImageData.mk 1 1 [⟨7, 7, 7, 255⟩]).wf ∧ 255 * (1 * 1) < 2 ^ 32 ∧
      ((((adaptiveMeanThreshold ⟨1, 1, [⟨7, 7, 7, 255⟩]⟩ 1 1).data.getD
          (0 * 1 + 0) default).r = 255) ↔ (0 : ℚ) < 1) :=
  ⟨by decide, by decide,
    adaptive_blockOne_amended ⟨1, 1, [⟨7, 7, 7, 255⟩]⟩ (by decide) (by decide) 1
      0 0 (by decide) (by decide)⟩

theorem luma_gray7 : luma ⟨7, 7, 7, 255⟩ = 7 := by
  rw [luma_eq_natDiv]; decide

/-- C3 counterexample: on the 1×1 gray-7 image with `C = -1` (so
`C < 0`), the fallback `adaptiveMeanThreshold` with `blockSize = 1`
outputs 0, not 255: the test is `7 > 7 - (-1)`, which is false. -/
theorem adaptive_blockOne_cx :
    ¬ (((-1 : ℚ) < 0) ↔
      (((adaptiveMeanThreshold ⟨1, 1, [⟨7, 7, 7, 255⟩]⟩ 1 (-1)).data.getD 0
        default).r = 255)) := by
  intro hiff
  have h255 := hiff.mp (by norm_num)
  have hgray : getGrayscale ⟨1, 1, [⟨7, 7, 7, 255⟩]⟩ = [7] := by
    simp [getGrayscale, luma_gray7]
  have hval : ((adaptiveMeanThreshold ⟨1, 1, [⟨7, 7, 7, 255⟩]⟩ 1 (-1)).data.getD 0
      default).r = 0 := by
    simp only [adaptiveMeanThreshold, hgray]
    norm_num [integral, rowSum, grayscaleToImageData, Finset.sum_range_one]
  rw [hval] at h255
  exact absurd h255 (by omega)

theorem otsu_uniform_witness :
    (ImageData.mk 2 2 (List.replicate (2 * 2) ⟨10, 10, 10, 7⟩)).wf ∧
      1 ≤ 2 * 2 ∧
      ((otsuThreshold ⟨2, 2, List.replicate (2 * 2) ⟨10, 10, 10, 7⟩⟩).1 = 0 ∧
        (otsuThreshold ⟨2, 2, List.replicate (2 * 2) ⟨10, 10, 10, 7⟩⟩).2.data =
          List.replicate (2 * 2)
            (if 1 ≤ luma ⟨10, 10, 10, 7⟩ then (⟨255, 255, 255, 255⟩ : Pixel)
              else ⟨0, 0, 0, 255⟩)) :=
  ⟨by decide, by decide,
    otsu_uniform_amended 2 2 ⟨10, 10, 10, 7⟩ (by decide) (by decide)⟩
